import Mathlib

/-!
Formal model of the `tensorboard_logger` event-file writer
(`include/tensorboard_logger.h`).

The development shallowly embeds the writer: bytes are naturals below 256,
files are byte lists, machine integers are naturals reduced modulo `2 ^ w`
where overflow matters, C++ `double` arithmetic in the bucket generator and
histogram aggregation is modelled over `ℚ`, and fallible operations return
`Except`.  Members whose implementation is only declared in the header are
modelled from the specification; each such definition carries a doc comment
saying so.
-/

namespace TBLogger

/-! ## Errors

The C++ code reports invalid input by throwing (constructor) or by an error
return code; the spec maps both to a typed failure result. -/

/-- Error taxonomy of the spec: malformed caller input vs I/O failure. -/
inductive TBError where
  | invalidArgument
  | ioError
deriving DecidableEq, Repr

/-! ## Little-endian byte encoding

`TensorBoardLogger::write` stores the payload length as the raw bytes of a
fixed-width unsigned integer, little-endian. -/

/-- The `w` little-endian bytes of the unsigned value `n` (as storing a
`w`-byte unsigned integer on a little-endian machine does). -/
def leBytes (w n : Nat) : List Nat :=
  (List.range w).map (fun i => n / 256 ^ i % 256)

/-- Read back a little-endian byte list as an unsigned integer. -/
def leDecode (bs : List Nat) : Nat :=
  bs.foldr (fun b acc => b + 256 * acc) 0

theorem leBytes_length (w n : Nat) : (leBytes w n).length = w := by
  simp [leBytes]

theorem leBytes_succ (w n : Nat) :
    leBytes (w + 1) n = n % 256 :: leBytes w (n / 256) := by
  simp only [leBytes, List.range_succ_eq_map, List.map_cons, List.map_map]
  refine List.cons_eq_cons.mpr ⟨by simp, ?_⟩
  apply List.map_congr_left
  intro i _
  simp only [Function.comp_apply, pow_succ]
  rw [Nat.div_div_eq_div_mul, mul_comm (256 ^ i) 256, ← Nat.div_div_eq_div_mul]

theorem leDecode_leBytes (w n : Nat) : leDecode (leBytes w n) = n % 256 ^ w := by
  induction w generalizing n with
  | zero => simp [leBytes, leDecode, Nat.mod_one]
  | succ w ih =>
    rw [leBytes_succ, leDecode, List.foldr_cons]
    have h1 : leDecode (leBytes w (n / 256)) = n / 256 % 256 ^ w := ih (n / 256)
    rw [leDecode] at h1
    rw [h1]
    rw [pow_succ, mul_comm (256 ^ w) 256, Nat.mod_mul]

/-! ## CRC32C and checksum masking

The framing checksums are CRC32C (Castagnoli).  The record writer is only
declared in the header (`TensorBoardLogger::write`); the checksum and its
masking are modelled from the spec formula
`masked_crc32c(data) = ((crc32c(data) rotate-right 15) + 0xa282ead8) mod 2^32`. -/

/-- The CRC32C polynomial, reflected representation. -/
def crcPoly : Nat := 0x82F63B78

/-- One bit of the reflected CRC division: shift right, conditionally
folding in the polynomial. -/
def crcBit (c : Nat) : Nat :=
  if c % 2 = 1 then (c / 2) ^^^ crcPoly else c / 2

/-- Fold one byte into the running CRC state. -/
def crcByte (c b : Nat) : Nat :=
  crcBit (crcBit (crcBit (crcBit (crcBit (crcBit (crcBit (crcBit (c ^^^ b))))))))

/-- CRC32C of a byte list: all-ones initial state, final complement. -/
def crc32c (data : List Nat) : Nat :=
  (data.foldl crcByte 0xFFFFFFFF) ^^^ 0xFFFFFFFF

/-- Rotate the 32-bit value `x` right by `n` bits. -/
def rotr32 (x n : Nat) : Nat :=
  x % 2 ^ 32 / 2 ^ n + x % 2 ^ n * 2 ^ (32 - n)

/-- Modelled from the spec: the checksum masking
`((crc32c(data) rotate-right 15) + 0xa282ead8) mod 2^32` required by the
consuming ecosystem. -/
def masked_crc32c (data : List Nat) : Nat :=
  (rotr32 (crc32c data) 15 + 0xa282ead8) % 2 ^ 32

/-! ## Record framing

`TensorBoardLogger::write` is only declared in the header; the framing is
modelled from the spec protocol: 8 length bytes, masked CRC of those, the
payload verbatim, masked CRC of the payload. -/

/-- Modelled from the spec: the byte frame `TensorBoardLogger::write` emits
for one serialized payload (length, length checksum, payload, payload
checksum). -/
def encode_record (payload : List Nat) : List Nat :=
  let lenB := leBytes 8 payload.length
  lenB ++ leBytes 4 (masked_crc32c lenB) ++ payload ++
    leBytes 4 (masked_crc32c payload)

/-- Modelled from the spec: appending one framed record to the file. -/
def write_event (file payload : List Nat) : List Nat :=
  file ++ encode_record payload

theorem encode_record_length (p : List Nat) :
    (encode_record p).length = p.length + 16 := by
  unfold encode_record
  simp only [List.length_append, leBytes_length]
  omega

/-- The documented reader of the framing: read 8 length bytes, check their
checksum, read the payload, check its checksum, repeat.  `fuel` bounds the
number of records. -/
def parse_records : Nat → List Nat → Option (List (List Nat))
  | 0, bytes => if bytes = [] then some [] else none
  | fuel + 1, bytes =>
    if bytes = [] then some []
    else if bytes.length < 8 then none
    else
      let lenB := bytes.take 8
      let L := leDecode lenB
      let body := bytes.drop 8
      if body.take 4 ≠ leBytes 4 (masked_crc32c lenB) then none
      else
        let rest := body.drop 4
        if rest.length < L + 4 then none
        else
          let payload := rest.take L
          if (rest.drop L).take 4 ≠ leBytes 4 (masked_crc32c payload) then none
          else
            match parse_records fuel ((rest.drop L).drop 4) with
            | some ps => some (payload :: ps)
            | none => none

theorem take_append_length {α : Type} {a : List α} {n : Nat}
    (h : a.length = n) (b : List α) : (a ++ b).take n = a := by
  subst h; simp

theorem drop_append_length {α : Type} {a : List α} {n : Nat}
    (h : a.length = n) (b : List α) : (a ++ b).drop n = b := by
  subst h; simp

theorem parse_records_encode_cons (fuel : Nat) (p rest : List Nat)
    (hp : p.length < 2 ^ 64) :
    parse_records (fuel + 1) (encode_record p ++ rest) =
      (parse_records fuel rest).map (fun ps => p :: ps) := by
  have hE : encode_record p ++ rest =
      leBytes 8 p.length ++
        (leBytes 4 (masked_crc32c (leBytes 8 p.length)) ++
          (p ++ (leBytes 4 (masked_crc32c p) ++ rest))) := by
    simp [encode_record, List.append_assoc]
  have hlenB := leBytes_length 8 p.length
  have hc1 := leBytes_length 4 (masked_crc32c (leBytes 8 p.length))
  have hc2 := leBytes_length 4 (masked_crc32c p)
  have hlen : (encode_record p ++ rest).length = p.length + 16 + rest.length := by
    rw [List.length_append, encode_record_length]
  have hne : encode_record p ++ rest ≠ [] := by
    intro h
    have h0 := congrArg List.length h
    rw [hlen] at h0
    simp at h0
  have hdec : leDecode (leBytes 8 p.length) = p.length := by
    rw [leDecode_leBytes]
    have h8 : (256 : Nat) ^ 8 = 2 ^ 64 := by norm_num
    rw [h8]
    exact Nat.mod_eq_of_lt hp
  have hpp : p.length = p.length := rfl
  have h8f : ¬((encode_record p ++ rest).length < 8) := by omega
  rw [parse_records, if_neg hne, if_neg h8f, hE]
  simp only [take_append_length hlenB, drop_append_length hlenB,
    take_append_length hc1, drop_append_length hc1, hdec,
    take_append_length hpp, drop_append_length hpp,
    take_append_length hc2, drop_append_length hc2]
  rw [if_neg (by simp), if_neg (by simp only [List.length_append, hc2]; omega),
    if_neg (by simp)]
  cases parse_records fuel rest <;> rfl

theorem parse_records_flatten (ps : List (List Nat))
    (h : ∀ p ∈ ps, p.length < 2 ^ 64) :
    parse_records ps.length ((ps.map encode_record).flatten) = some ps := by
  induction ps with
  | nil => simp [parse_records]
  | cons p ps ih =>
    simp only [List.map_cons, List.flatten_cons, List.length_cons]
    rw [parse_records_encode_cons ps.length p _ (h p (by simp))]
    rw [ih (fun q hq => h q (by simp [hq]))]
    rfl

/-- C3: for every serialized payload of length `L` (with `L` in `size_t`
range), the record appended to the file consists exactly of 8 bytes holding
`L` unsigned little-endian, then 4 bytes holding the masked CRC32C of those
8 length bytes, then the `L` payload bytes verbatim, then 4 bytes holding
the masked CRC32C of the payload, where
`masked_crc32c(data) = ((crc32c(data) rotate-right 15) + 0xa282ead8) mod 2^32`;
the documented framing reader recovers exactly the payload. -/
theorem record_framing_layout (file payload : List Nat)
    (h : payload.length < 2 ^ 64) :
    write_event file payload =
      file ++ (leBytes 8 payload.length ++
        (leBytes 4 (masked_crc32c (leBytes 8 payload.length)) ++
          (payload ++ leBytes 4 (masked_crc32c payload))))
    ∧ (leBytes 8 payload.length).length = 8
    ∧ leDecode (leBytes 8 payload.length) = payload.length
    ∧ (leBytes 4 (masked_crc32c payload)).length = 4
    ∧ (∀ data : List Nat,
        masked_crc32c data = (rotr32 (crc32c data) 15 + 0xa282ead8) % 2 ^ 32)
    ∧ parse_records 1 (encode_record payload) = some [payload] := by
  refine ⟨by simp [write_event, encode_record, List.append_assoc],
    leBytes_length _ _, ?_, leBytes_length _ _, fun _ => rfl, ?_⟩
  · rw [leDecode_leBytes]
    have h8 : (256 : Nat) ^ 8 = 2 ^ 64 := by norm_num
    rw [h8]
    exact Nat.mod_eq_of_lt h
  · have hr := parse_records_flatten [payload] (by simpa using h)
    simpa using hr

/-- Witness for C3 at the one-byte payload `[170]` and the empty file. -/
theorem record_framing_layout_witness :
    ([170] : List Nat).length < 2 ^ 64 ∧
      (write_event [] [170] =
        [] ++ (leBytes 8 ([170] : List Nat).length ++
          (leBytes 4 (masked_crc32c (leBytes 8 ([170] : List Nat).length)) ++
            ([170] ++ leBytes 4 (masked_crc32c [170]))))
      ∧ (leBytes 8 ([170] : List Nat).length).length = 8
      ∧ leDecode (leBytes 8 ([170] : List Nat).length) = ([170] : List Nat).length
      ∧ (leBytes 4 (masked_crc32c [170])).length = 4
      ∧ (∀ data : List Nat,
          masked_crc32c data = (rotr32 (crc32c data) 15 + 0xa282ead8) % 2 ^ 32)
      ∧ parse_records 1 (encode_record [170]) = some [[170]]) :=
  ⟨by decide, record_framing_layout [] [170] (by decide)⟩

/-! ## Construction and teardown

The constructor and destructor bodies are written out in the header, so they
are embedded directly.  Thrown exceptions are modelled as typed errors,
following the spec's fallible-construction pattern. -/

/-- The observable actions of the destructor body. -/
inductive DtorAction where
  | closeStream
  | deleteStream
  | freeBuckets
  | setStopFlag
  | joinFlusher
deriving DecidableEq, Repr

/-- The action sequence of `TensorBoardLogger::~TensorBoardLogger`, in the
order written in the header: `ofs_->close()`, `delete ofs_`, conditionally
`delete bucket_limits_`, then `stop = true` and, if the flush thread is
joinable, `flushing_thread.join()`. -/
def dtorActions (hasBuckets joinable : Bool) : List DtorAction :=
  [DtorAction.closeStream, DtorAction.deleteStream] ++
    (if hasBuckets then [DtorAction.freeBuckets] else []) ++
    ([DtorAction.setStopFlag] ++
      (if joinable then [DtorAction.joinFlusher] else []))

/-- C1 (refuted by the code): in every execution of the destructor of a
successfully constructed logger (whose flush thread is joinable), the close
of the output stream strictly precedes the join of the flush task, so the
claimed join-happens-before-close ordering fails. -/
theorem dtor_close_precedes_join :
    ∀ hasBuckets : Bool,
      (dtorActions hasBuckets true).indexOf DtorAction.closeStream <
        (dtorActions hasBuckets true).indexOf DtorAction.joinFlusher ∧
      ¬ ((dtorActions hasBuckets true).indexOf DtorAction.joinFlusher <
          (dtorActions hasBuckets true).indexOf DtorAction.closeStream) := by
  decide

/-- Modelled from its header comment: `get_basename` extracts the basename
of a path by finding the last slash. -/
def get_basename (path : List Char) : List Char :=
  (path.reverse.takeWhile (fun c => c != '/')).reverse

/-- The `basename.find("tfevents") != std::string::npos` test: some suffix
of `s` starts with `needle`. -/
def containsSub (s needle : List Char) : Bool :=
  s.tails.any (fun t => needle.isPrefixOf t)

/-- The observable effects of the constructor. -/
inductive CtorEffect where
  | openedFile (truncate : Bool)
  | startedThread
deriving DecidableEq, Repr

/-- `TensorBoardLogger::TensorBoardLogger` as written in the header: check
the basename for the `tfevents` substring before anything else, then open
the file (truncating unless resuming), then start the flush thread.
`openOk` models whether the stream opens successfully.  Returns the result
together with the list of effects performed, in order. -/
def ctorRun (log_file : List Char) (resume openOk : Bool) :
    Except TBError Unit × List CtorEffect :=
  if ¬ containsSub (get_basename log_file) "tfevents".toList then
    (Except.error TBError.invalidArgument, [])
  else if openOk then
    (Except.ok (), [CtorEffect.openedFile (!resume), CtorEffect.startedThread])
  else
    (Except.error TBError.ioError, [CtorEffect.openedFile (!resume)])

/-- C2: whenever the basename of the target file does not contain the
substring "tfevents", construction fails with InvalidArgument having
performed no effect: no file is opened (hence none created) and no flush
thread is started. -/
theorem ctor_rejects_non_tfevents (log_file : List Char) (resume openOk : Bool)
    (h : containsSub (get_basename log_file) "tfevents".toList = false) :
    ctorRun log_file resume openOk =
      (Except.error TBError.invalidArgument, []) := by
  have hcond : ¬ (containsSub (get_basename log_file) "tfevents".toList = true) := by
    rw [h]
    simp
  unfold ctorRun
  rw [if_pos hcond]

/-- Witness for C2 at the filename "out.log". -/
theorem ctor_rejects_non_tfevents_witness :
    containsSub (get_basename "out.log".toList) "tfevents".toList = false ∧
      ctorRun "out.log".toList false true =
        (Except.error TBError.invalidArgument, []) :=
  ⟨by decide, ctor_rejects_non_tfevents "out.log".toList false true (by decide)⟩

/-! ## Histogram bucket generation

`TensorBoardLogger::generate_default_buckets` is only declared in the
header; the ladder is modelled from the spec algorithm over `ℚ` (the C++
code computes with `double`; the growth loop and mirroring are exact). -/

/-- Growth factor of the geometric bucket ladder (1.1). -/
def bucketGrowth : ℚ := 11 / 10

/-- Upper limit of the geometric ladder (1e20). -/
def bucketMaxLimit : ℚ := 10 ^ 20

/-- First positive bucket bound (1e-12). -/
def bucketFirst : ℚ := 1 / 10 ^ 12

/-- The terminal "infinity" sentinel: the largest finite double,
`(2^53 - 1) * 2^971`. -/
def bucketSentinel : ℚ := (2 ^ 53 - 1) * 2 ^ 971

/-- Modelled from the spec: the positive geometric ladder of
`generate_default_buckets` (implementation not under src/): collect `v` and
multiply by the growth factor while `v` is below the max limit.  `fuel`
bounds the iteration count; `posLadder_fuel_adequate` shows the loop
terminates within the fuel used below. -/
def posLadder : Nat → ℚ → List ℚ
  | 0, _ => []
  | fuel + 1, v =>
    if v < bucketMaxLimit then v :: posLadder fuel (v * bucketGrowth) else []

/-- Modelled from the spec: the positive bounds with the sentinel appended. -/
def posBuckets : List ℚ := posLadder 1000 bucketFirst ++ [bucketSentinel]

/-- Modelled from the spec: the bucket-limit table of
`generate_default_buckets`: the positive sequence mirrored into negative
space (negated, reversed) and concatenated with the positive sequence. -/
def default_buckets : List ℚ := (posBuckets.map (fun x => -x)).reverse ++ posBuckets

theorem posLadder_stable (fuel : Nat) :
    ∀ v : ℚ, bucketMaxLimit ≤ v * bucketGrowth ^ fuel →
      posLadder (fuel + 1) v = posLadder fuel v := by
  induction fuel with
  | zero =>
    intro v h
    rw [pow_zero, mul_one] at h
    rw [posLadder, posLadder, if_neg (not_lt.mpr h)]
  | succ fuel ih =>
    intro v h
    rw [posLadder]
    conv_rhs => rw [posLadder]
    by_cases hv : v < bucketMaxLimit
    · rw [if_pos hv, if_pos hv, ih (v * bucketGrowth) (by
        have he : v * bucketGrowth * bucketGrowth ^ fuel =
            v * bucketGrowth ^ (fuel + 1) := by ring
        rw [he]
        exact h)]
    · rw [if_neg hv, if_neg hv]

/-- The whole loop terminates within the fuel used by `posBuckets`: one more
unit of fuel collects no further bound. -/
theorem posLadder_fuel_adequate :
    posLadder 1001 bucketFirst = posLadder 1000 bucketFirst := by
  apply posLadder_stable
  unfold bucketMaxLimit bucketFirst bucketGrowth
  rw [div_pow, one_div, inv_mul_eq_div, div_div, le_div_iff₀ (by positivity)]
  calc (10 : ℚ) ^ 20 * (10 ^ 1000 * 10 ^ 12) = 10 ^ 1032 := by ring
  _ ≤ 11 ^ 1000 := by
    have h : (10 : ℕ) ^ 1032 ≤ 11 ^ 1000 := by
      set_option maxRecDepth 4000 in decide
    exact_mod_cast h

theorem posLadder_mem (fuel : Nat) :
    ∀ v x : ℚ, 0 < v → x ∈ posLadder fuel v →
      v ≤ x ∧ 0 < x ∧ x < bucketMaxLimit := by
  induction fuel with
  | zero => intro v x _ hx; simp [posLadder] at hx
  | succ fuel ih =>
    intro v x hv hx
    rw [posLadder] at hx
    by_cases hvm : v < bucketMaxLimit
    · rw [if_pos hvm, List.mem_cons] at hx
      rcases hx with rfl | hx
      · exact ⟨le_refl x, hv, hvm⟩
      · have hvg : 0 < v * bucketGrowth := by
          apply mul_pos hv
          norm_num [bucketGrowth]
        obtain ⟨h1, h2, h3⟩ := ih (v * bucketGrowth) x hvg hx
        refine ⟨le_trans ?_ h1, h2, h3⟩
        have hg : (1 : ℚ) ≤ bucketGrowth := by norm_num [bucketGrowth]
        nlinarith [hv, hg]
    · rw [if_neg hvm] at hx
      simp at hx

theorem posLadder_pairwise (fuel : Nat) :
    ∀ v : ℚ, 0 < v → (posLadder fuel v).Pairwise (· < ·) := by
  induction fuel with
  | zero => intro v _; simp [posLadder]
  | succ fuel ih =>
    intro v hv
    rw [posLadder]
    by_cases hvm : v < bucketMaxLimit
    · rw [if_pos hvm]
      have hvg : 0 < v * bucketGrowth := by
        apply mul_pos hv
        norm_num [bucketGrowth]
      refine List.pairwise_cons.mpr ⟨?_, ih (v * bucketGrowth) hvg⟩
      intro x hx
      have h1 := (posLadder_mem fuel (v * bucketGrowth) x hvg hx).1
      have hg : (1 : ℚ) < bucketGrowth := by norm_num [bucketGrowth]
      have hlt : v < v * bucketGrowth := by nlinarith [hv, hg]
      exact lt_of_lt_of_le hlt h1
    · rw [if_neg hvm]
      exact List.Pairwise.nil

theorem bucketFirst_pos : 0 < bucketFirst := by norm_num [bucketFirst]

theorem bucketMaxLimit_lt_sentinel : bucketMaxLimit < bucketSentinel := by
  norm_num [bucketMaxLimit, bucketSentinel]

theorem posBuckets_mem_pos (x : ℚ) (hx : x ∈ posBuckets) : 0 < x := by
  rw [posBuckets, List.mem_append] at hx
  rcases hx with hx | hx
  · exact (posLadder_mem 1000 bucketFirst x bucketFirst_pos hx).2.1
  · rw [List.mem_singleton] at hx
    subst hx
    have h := bucketMaxLimit_lt_sentinel
    have h2 : (0 : ℚ) < bucketMaxLimit := by norm_num [bucketMaxLimit]
    linarith

theorem posBuckets_pairwise : posBuckets.Pairwise (· < ·) := by
  rw [posBuckets, List.pairwise_append]
  refine ⟨posLadder_pairwise 1000 bucketFirst bucketFirst_pos, by simp, ?_⟩
  intro x hx y hy
  rw [List.mem_singleton] at hy
  subst hy
  have h3 := (posLadder_mem 1000 bucketFirst x bucketFirst_pos hx).2.2
  exact lt_trans h3 bucketMaxLimit_lt_sentinel

theorem default_buckets_pairwise : default_buckets.Pairwise (· < ·) := by
  rw [default_buckets, List.pairwise_append]
  refine ⟨?_, posBuckets_pairwise, ?_⟩
  · rw [List.pairwise_reverse, List.pairwise_map]
    apply List.Pairwise.imp ?_ posBuckets_pairwise
    intro a b hab
    exact neg_lt_neg hab
  · intro x hx y hy
    rw [List.mem_reverse, List.mem_map] at hx
    obtain ⟨a, ha, rfl⟩ := hx
    have hapos := posBuckets_mem_pos a ha
    have hypos := posBuckets_mem_pos y hy
    linarith

/-- The mirrored table is its own reverse up to negation. -/
theorem default_buckets_map_neg :
    default_buckets.map (fun x => -x) = default_buckets.reverse := by
  rw [default_buckets, List.map_append, List.map_reverse,
    List.reverse_append, List.reverse_reverse]
  have hmm : (posBuckets.map (fun x => -x)).map (fun x => -x) = posBuckets := by
    simp
  rw [hmm]

/-- C4: the bucket table of `generate_default_buckets` is the geometric
ladder from 1e-12 with growth 1.1 up to the max limit, with the infinity
sentinel appended and the positive sequence mirrored into negative space;
it is strictly increasing, and symmetric under negation:
`bucket[i] = -bucket[n-1-i]` for every index (in particular at every
non-sentinel index). -/
theorem default_buckets_spec :
    default_buckets.Pairwise (· < ·) ∧
    default_buckets = (posBuckets.map (fun x => -x)).reverse ++ posBuckets ∧
    posBuckets = posLadder 1000 bucketFirst ++ [bucketSentinel] ∧
    (∀ i j : Nat, i < default_buckets.length → j < default_buckets.length →
      i + j + 1 = default_buckets.length →
      default_buckets.getD i 0 = - default_buckets.getD j 0) := by
  refine ⟨default_buckets_pairwise, rfl, rfl, ?_⟩
  intro i j hi hj hij
  have hrev : default_buckets.reverse.getD i 0 = default_buckets.getD j 0 := by
    have hi2 : i < default_buckets.reverse.length := by simpa using hi
    rw [List.getD_eq_getElem _ _ hi2, List.getD_eq_getElem _ _ hj,
      List.getElem_reverse]
    congr 1
    omega
  have hmapped : (default_buckets.map (fun x => -x)).getD i 0 =
      - default_buckets.getD i 0 := by
    have hi3 : i < (default_buckets.map (fun x => -x)).length := by simpa using hi
    rw [List.getD_eq_getElem _ _ hi3, List.getD_eq_getElem _ _ hi,
      List.getElem_map]
  have hmap := congrArg (fun l => l.getD i (0 : ℚ)) default_buckets_map_neg
  simp only at hmap
  rw [hmapped, hrev] at hmap
  linarith [hmap]

/-- Witness for C4's symmetry clause at the first and last index. -/
theorem default_buckets_spec_witness :
    0 < default_buckets.length ∧
    default_buckets.length - 1 < default_buckets.length ∧
    0 + (default_buckets.length - 1) + 1 = default_buckets.length ∧
    default_buckets.getD 0 0 = - default_buckets.getD (default_buckets.length - 1) 0 := by
  have hpos : 0 < default_buckets.length := by
    rw [default_buckets, posBuckets]
    simp
  exact ⟨hpos, by omega, by omega,
    default_buckets_spec.2.2.2 0 (default_buckets.length - 1) hpos (by omega) (by omega)⟩

/-! ## Histogram aggregation

`TensorBoardLogger::add_histogram` (pointer overload) is only declared in
the header; the aggregation is modelled from the spec: per-sample bucket
tallying by first-bound-at-least search, with running min/max/sum/
sum-of-squares.  The templated vector overload is written out in the header
and delegates to the pointer overload. -/

/-- The histogram summary fields populated by `add_histogram`. -/
structure HistogramProto where
  min : ℚ
  max : ℚ
  sum : ℚ
  sum_squares : ℚ
  bucket_limit : List ℚ
  bucket : List Nat
deriving DecidableEq, Repr

/-- Modelled from the spec: index of the first bucket bound at least `v`
(the lower-bound search over the limit table); `limits.length` when none. -/
def bucketIndex (limits : List ℚ) (v : ℚ) : Nat :=
  limits.findIdx (fun l => decide (v ≤ l))

/-- Increment the count of bucket `i`. -/
def incrBucket (counts : List Nat) (i : Nat) : List Nat :=
  counts.set i (counts.getD i 0 + 1)

/-- Modelled from the spec: per-bucket tallying of the samples. -/
def tally (limits : List ℚ) (values : List ℚ) (counts : List Nat) : List Nat :=
  values.foldl (fun cs v => incrBucket cs (bucketIndex limits v)) counts

/-- Modelled from the spec: aggregate a nonempty sample list (head and tail)
into the histogram summary. -/
def histogramOf (limits : List ℚ) (v0 : ℚ) (vs : List ℚ) : HistogramProto :=
  { min := vs.foldl min v0
    max := vs.foldl max v0
    sum := vs.foldl (fun a b => a + b) v0
    sum_squares := vs.foldl (fun a b => a + b * b) (v0 * v0)
    bucket_limit := limits
    bucket := tally limits (v0 :: vs) (List.replicate limits.length 0) }

/-- Modelled from the spec: `add_histogram` rejects empty input with
InvalidArgument and otherwise aggregates the samples. -/
def add_histogram (limits : List ℚ) (values : List ℚ) :
    Except TBError HistogramProto :=
  match values with
  | [] => Except.error TBError.invalidArgument
  | v :: vs => Except.ok (histogramOf limits v vs)

/-- The pointer overload reads `num` samples from memory `mem` (the C++
`const double *value` plus `size_t num`). -/
def add_histogram_ptr (limits : List ℚ) (mem : Nat → ℚ) (num : Nat) :
    Except TBError HistogramProto :=
  add_histogram limits ((List.range num).map mem)

/-- The templated vector overload exactly as written in the header:
delegate to the pointer overload at the vector's data pointer and size. -/
def add_histogram_vec (limits : List ℚ) (values : List ℚ) :
    Except TBError HistogramProto :=
  add_histogram_ptr limits (fun i => values.getD i 0) values.length

/-! ### Logger-level event list -/

/-- The summary payload variants the claims need. -/
inductive SummaryPayload where
  | histogramEv (tag : String) (histo : HistogramProto)
  | imageEv (tag : String) (encoded_image : List Nat)
      (height width channel : Int) (metadata : Option (String × String))
deriving DecidableEq, Repr

/-- One emitted event: a step index plus its summary payload. -/
structure Event where
  step : Int
  payload : SummaryPayload
deriving DecidableEq, Repr

/-- The logger state the claims need: the emitted event stream and the tags
already seen (for the metadata-once rule). -/
structure LoggerState where
  events : List Event
  seen_tags : List String
deriving DecidableEq, Repr

/-- Modelled from the spec: logger-level `add_histogram`: on success appends
one histogram event, on failure returns the error leaving the log
untouched. -/
def logger_add_histogram (st : LoggerState) (tag : String) (step : Int)
    (limits : List ℚ) (values : List ℚ) :
    LoggerState × Except TBError Unit :=
  match add_histogram limits values with
  | Except.error e => (st, Except.error e)
  | Except.ok histo =>
    ({ st with
        events := st.events ++ [⟨step, SummaryPayload.histogramEv tag histo⟩] },
      Except.ok ())

/-! ### Aggregation lemmas -/

theorem incrBucket_length (cs : List Nat) (i : Nat) :
    (incrBucket cs i).length = cs.length :=
  List.length_set cs i _

theorem incrBucket_sum (cs : List Nat) (i : Nat) (h : i < cs.length) :
    (incrBucket cs i).sum = cs.sum + 1 := by
  induction cs generalizing i with
  | nil => simp at h
  | cons c cs ih =>
    cases i with
    | zero => simp [incrBucket]; omega
    | succ i =>
      have hi : i < cs.length := by simpa using h
      have hrec := ih i hi
      simp only [incrBucket] at hrec ⊢
      simp only [List.set_cons_succ, List.getD_cons_succ, List.sum_cons]
      omega

theorem bucketIndex_lt (limits : List ℚ) (v : ℚ)
    (h : ∃ l ∈ limits, v ≤ l) : bucketIndex limits v < limits.length := by
  apply List.findIdx_lt_length_of_exists
  obtain ⟨l, hl, hvl⟩ := h
  exact ⟨l, hl, by simpa using hvl⟩

theorem tally_length (limits : List ℚ) (values : List ℚ) :
    ∀ counts : List Nat, (tally limits values counts).length = counts.length := by
  induction values with
  | nil => intro counts; rfl
  | cons v vs ih =>
    intro counts
    show (tally limits vs (incrBucket counts (bucketIndex limits v))).length = _
    rw [ih, incrBucket_length]

theorem tally_sum (limits : List ℚ) (values : List ℚ)
    (hv : ∀ v ∈ values, ∃ l ∈ limits, v ≤ l) :
    ∀ counts : List Nat, counts.length = limits.length →
      (tally limits values counts).sum = counts.sum + values.length := by
  induction values with
  | nil => intro counts _; simp [tally]
  | cons v vs ih =>
    intro counts hc
    have hidx : bucketIndex limits v < counts.length := by
      rw [hc]
      exact bucketIndex_lt limits v (hv v (by simp))
    show (tally limits vs (incrBucket counts (bucketIndex limits v))).sum = _
    rw [ih (fun w hw => hv w (by simp [hw])) _ (by rw [incrBucket_length, hc])]
    rw [incrBucket_sum counts _ hidx]
    simp
    omega

theorem foldl_min_mem (vs : List ℚ) : ∀ v0 : ℚ, vs.foldl min v0 ∈ v0 :: vs := by
  induction vs with
  | nil => intro v0; simp
  | cons w ws ih =>
    intro v0
    rw [List.foldl_cons]
    rcases List.mem_cons.mp (ih (min v0 w)) with hh | hh
    · rw [hh]
      rcases min_choice v0 w with he | he <;> rw [he]
      · exact List.mem_cons_self _ _
      · exact List.mem_cons_of_mem _ (List.mem_cons_self _ _)
    · exact List.mem_cons_of_mem _ (List.mem_cons_of_mem _ hh)

theorem foldl_min_le (vs : List ℚ) :
    ∀ v0 : ℚ, ∀ x ∈ v0 :: vs, vs.foldl min v0 ≤ x := by
  induction vs with
  | nil =>
    intro v0 x hx
    rw [List.mem_singleton] at hx
    rw [hx]
    simp
  | cons w ws ih =>
    intro v0 x hx
    rw [List.foldl_cons]
    rcases List.mem_cons.mp hx with h1 | h1
    · rw [h1]
      exact le_trans (ih (min v0 w) _ (List.mem_cons_self _ _)) (min_le_left v0 w)
    · rcases List.mem_cons.mp h1 with h2 | h2
      · rw [h2]
        exact le_trans (ih (min v0 w) _ (List.mem_cons_self _ _)) (min_le_right v0 w)
      · exact ih (min v0 w) x (List.mem_cons_of_mem _ h2)

theorem foldl_max_mem (vs : List ℚ) : ∀ v0 : ℚ, vs.foldl max v0 ∈ v0 :: vs := by
  induction vs with
  | nil => intro v0; simp
  | cons w ws ih =>
    intro v0
    rw [List.foldl_cons]
    rcases List.mem_cons.mp (ih (max v0 w)) with hh | hh
    · rw [hh]
      rcases max_choice v0 w with he | he <;> rw [he]
      · exact List.mem_cons_self _ _
      · exact List.mem_cons_of_mem _ (List.mem_cons_self _ _)
    · exact List.mem_cons_of_mem _ (List.mem_cons_of_mem _ hh)

theorem foldl_max_ge (vs : List ℚ) :
    ∀ v0 : ℚ, ∀ x ∈ v0 :: vs, x ≤ vs.foldl max v0 := by
  induction vs with
  | nil =>
    intro v0 x hx
    rw [List.mem_singleton] at hx
    rw [hx]
    simp
  | cons w ws ih =>
    intro v0 x hx
    rw [List.foldl_cons]
    rcases List.mem_cons.mp hx with h1 | h1
    · rw [h1]
      exact le_trans (le_max_left v0 w) (ih (max v0 w) _ (List.mem_cons_self _ _))
    · rcases List.mem_cons.mp h1 with h2 | h2
      · rw [h2]
        exact le_trans (le_max_right v0 w) (ih (max v0 w) _ (List.mem_cons_self _ _))
      · exact ih (max v0 w) x (List.mem_cons_of_mem _ h2)

/-- C5: for every nonempty sample sequence whose samples are covered by the
bucket table (as every double is, the table ending in the largest double),
`add_histogram` succeeds and the emitted histogram's per-bucket counts sum
exactly to the number of samples, while its min and max fields are the true
sample extremes: attained lower and upper bounds of the samples. -/
theorem add_histogram_aggregates (limits : List ℚ) (v0 : ℚ) (vs : List ℚ)
    (hcov : ∀ v ∈ v0 :: vs, ∃ l ∈ limits, v ≤ l) :
    ∃ histo : HistogramProto,
      add_histogram limits (v0 :: vs) = Except.ok histo ∧
      histo.bucket.sum = (v0 :: vs).length ∧
      histo.min ∈ v0 :: vs ∧ (∀ v ∈ v0 :: vs, histo.min ≤ v) ∧
      histo.max ∈ v0 :: vs ∧ (∀ v ∈ v0 :: vs, v ≤ histo.max) := by
  refine ⟨histogramOf limits v0 vs, rfl, ?_, ?_, ?_, ?_, ?_⟩
  · show (tally limits (v0 :: vs) (List.replicate limits.length 0)).sum = _
    rw [tally_sum limits (v0 :: vs) hcov _ (by simp)]
    simp
  · exact foldl_min_mem vs v0
  · exact foldl_min_le vs v0
  · exact foldl_max_mem vs v0
  · exact foldl_max_ge vs v0

/-- Witness for C5 at samples `[0, 5]` with limits `[1, 10]`. -/
theorem add_histogram_aggregates_witness :
    (∀ v ∈ (0 : ℚ) :: [5], ∃ l ∈ ([1, 10] : List ℚ), v ≤ l) ∧
      (∃ histo : HistogramProto,
        add_histogram [1, 10] ((0 : ℚ) :: [5]) = Except.ok histo ∧
        histo.bucket.sum = ((0 : ℚ) :: [5]).length ∧
        histo.min ∈ (0 : ℚ) :: [5] ∧ (∀ v ∈ (0 : ℚ) :: [5], histo.min ≤ v) ∧
        histo.max ∈ (0 : ℚ) :: [5] ∧ (∀ v ∈ (0 : ℚ) :: [5], v ≤ histo.max)) :=
  ⟨by decide, add_histogram_aggregates [1, 10] 0 [5] (by decide)⟩

/-- C6: `add_histogram` called on an empty sample sequence (`num == 0` for
the pointer overload, or an empty vector) fails with InvalidArgument and
appends nothing to the log. -/
theorem add_histogram_empty_rejected (st : LoggerState) (tag : String)
    (step : Int) (limits : List ℚ) (mem : Nat → ℚ) :
    logger_add_histogram st tag step limits [] =
        (st, Except.error TBError.invalidArgument) ∧
      add_histogram_ptr limits mem 0 = Except.error TBError.invalidArgument ∧
      add_histogram_vec limits [] = Except.error TBError.invalidArgument :=
  ⟨rfl, rfl, rfl⟩

theorem range_map_getD (values : List ℚ) :
    (List.range values.length).map (fun i => values.getD i 0) = values := by
  induction values with
  | nil => rfl
  | cons x xs ih =>
    show (List.range (xs.length + 1)).map _ = _
    rw [List.range_succ_eq_map, List.map_cons, List.map_map]
    refine List.cons_eq_cons.mpr ⟨rfl, ?_⟩
    calc (List.range xs.length).map ((fun i => (x :: xs).getD i 0) ∘ Nat.succ)
        = (List.range xs.length).map (fun i => xs.getD i 0) := by
          apply List.map_congr_left
          intro i _
          rfl
      _ = xs := ih

/-- C10: the templated vector overload of `add_histogram` returns the same
result as the pointer overload called with the vector's data pointer and
size: for any memory whose first `values.length` cells hold the vector's
elements, the two overloads agree, and both equal the direct aggregation of
the vector's elements. -/
theorem add_histogram_overloads_agree (limits : List ℚ) (values : List ℚ)
    (mem : Nat → ℚ) (h : ∀ i, i < values.length → mem i = values.getD i 0) :
    add_histogram_vec limits values =
        add_histogram_ptr limits mem values.length ∧
      add_histogram_vec limits values = add_histogram limits values := by
  have hmaps : (List.range values.length).map mem =
      (List.range values.length).map (fun i => values.getD i 0) := by
    apply List.map_congr_left
    intro i hi
    exact h i (List.mem_range.mp hi)
  constructor
  · show add_histogram limits _ = add_histogram limits _
    rw [hmaps]
  · show add_histogram limits _ = add_histogram limits _
    rw [range_map_getD]

/-- Witness for C10 at the vector `[1, 2]` with limits `[0, 3]`. -/
theorem add_histogram_overloads_agree_witness :
    (∀ i, i < ([1, 2] : List ℚ).length →
        (fun k => ([1, 2] : List ℚ).getD k 0) i = ([1, 2] : List ℚ).getD i 0) ∧
      (add_histogram_vec [0, 3] [1, 2] =
          add_histogram_ptr [0, 3] (fun k => ([1, 2] : List ℚ).getD k 0)
            ([1, 2] : List ℚ).length ∧
        add_histogram_vec [0, 3] [1, 2] = add_histogram [0, 3] [1, 2]) :=
  ⟨fun _ _ => rfl,
    add_histogram_overloads_agree [0, 3] [1, 2] _ (fun _ _ => rfl)⟩

/-! ## Images: the metadata-once rule

`add_image` is only declared in the header; its header comment states that
display metadata of an already-seen tag is stripped, keeping only the first.
The logger-level behaviour is modelled from that and the spec. -/

/-- Modelled from the spec: logger-level `add_image`: display metadata
(display_name, description) attaches only to the tag's first event; for an
already-seen tag it is silently dropped and not re-emitted. -/
def logger_add_image (st : LoggerState) (tag : String) (step : Int)
    (encoded_image : List Nat) (height width channel : Int)
    (display_name description : String) : LoggerState × Except TBError Unit :=
  if st.seen_tags.contains tag then
    ({ st with
        events := st.events ++
          [⟨step, SummaryPayload.imageEv tag encoded_image height width
            channel none⟩] },
      Except.ok ())
  else
    ({ events := st.events ++
        [⟨step, SummaryPayload.imageEv tag encoded_image height width channel
          (some (display_name, description))⟩],
       seen_tags := st.seen_tags ++ [tag] },
      Except.ok ())

/-- The display names attached to image events of `tag` in an event list. -/
def image_display_names (tag : String) (events : List Event) : List String :=
  events.filterMap (fun e =>
    match e.payload with
    | SummaryPayload.imageEv t _ _ _ _ (some (dn, _)) =>
      if t = tag then some dn else none
    | _ => none)

theorem image_display_names_append (tag : String) (a b : List Event) :
    image_display_names tag (a ++ b) =
      image_display_names tag a ++ image_display_names tag b :=
  List.filterMap_append a b _

/-- C7: calling `add_image` twice on the same previously unseen tag with
different display names leaves only the first name in the emitted stream:
the second call's metadata is silently dropped. -/
theorem add_image_metadata_once (st : LoggerState) (tag : String)
    (s1 s2 : Int) (img1 img2 : List Nat) (ht1 wd1 ch1 ht2 wd2 ch2 : Int)
    (d1 d2 desc1 desc2 : String)
    (hseen : st.seen_tags.contains tag = false)
    (hnone : image_display_names tag st.events = [])
    (hne : d2 ≠ d1) :
    image_display_names tag
        ((logger_add_image
          (logger_add_image st tag s1 img1 ht1 wd1 ch1 d1 desc1).1
          tag s2 img2 ht2 wd2 ch2 d2 desc2).1).events = [d1] ∧
      d2 ∉ image_display_names tag
        ((logger_add_image
          (logger_add_image st tag s1 img1 ht1 wd1 ch1 d1 desc1).1
          tag s2 img2 ht2 wd2 ch2 d2 desc2).1).events := by
  have hstep1 : (logger_add_image st tag s1 img1 ht1 wd1 ch1 d1 desc1).1 =
      { events := st.events ++
          [⟨s1, SummaryPayload.imageEv tag img1 ht1 wd1 ch1
            (some (d1, desc1))⟩],
        seen_tags := st.seen_tags ++ [tag] } := by
    unfold logger_add_image
    rw [if_neg (by rw [hseen]; simp)]
  rw [hstep1]
  have hseen2 : (st.seen_tags ++ [tag]).contains tag = true := by
    simp
  have hstep2 : logger_add_image
      ({ events := st.events ++
          [⟨s1, SummaryPayload.imageEv tag img1 ht1 wd1 ch1
            (some (d1, desc1))⟩],
         seen_tags := st.seen_tags ++ [tag] } : LoggerState)
      tag s2 img2 ht2 wd2 ch2 d2 desc2 =
      ({ events := (st.events ++
          [⟨s1, SummaryPayload.imageEv tag img1 ht1 wd1 ch1
            (some (d1, desc1))⟩]) ++
          [⟨s2, SummaryPayload.imageEv tag img2 ht2 wd2 ch2 none⟩],
         seen_tags := st.seen_tags ++ [tag] }, Except.ok ()) := by
    unfold logger_add_image
    rw [if_pos hseen2]
  rw [hstep2]
  have hnames : image_display_names tag
      ((st.events ++
        [⟨s1, SummaryPayload.imageEv tag img1 ht1 wd1 ch1
          (some (d1, desc1))⟩]) ++
        [⟨s2, SummaryPayload.imageEv tag img2 ht2 wd2 ch2 none⟩]) = [d1] := by
    rw [image_display_names_append, image_display_names_append, hnone]
    simp [image_display_names]
  refine ⟨hnames, ?_⟩
  rw [hnames]
  simp [hne]

/-- Witness for C7: two add_image calls on the fresh tag "t" with names
"a" then "b" starting from the empty logger. -/
theorem add_image_metadata_once_witness :
    (LoggerState.mk [] []).seen_tags.contains "t" = false ∧
    image_display_names "t" (LoggerState.mk [] []).events = [] ∧
    ("b" : String) ≠ "a" ∧
    (image_display_names "t"
        ((logger_add_image
          (logger_add_image (LoggerState.mk [] []) "t" 1 [7] 1 1 1 "a" "da").1
          "t" 2 [8] 1 1 1 "b" "db").1).events = ["a"] ∧
      ("b" : String) ∉ image_display_names "t"
        ((logger_add_image
          (logger_add_image (LoggerState.mk [] []) "t" 1 [7] 1 1 1 "a" "da").1
          "t" 2 [8] 1 1 1 "b" "db").1).events) :=
  ⟨rfl, rfl, by decide,
    add_image_metadata_once (LoggerState.mk [] []) "t" 1 2 [7] [8] 1 1 1 1 1 1
      "a" "b" "da" "db" rfl rfl (by decide)⟩

/-! ## Embeddings

`add_embedding` is only declared in the header; all three overloads carry a
`step` parameter whose default is annotated "no effect" in the header.  The
in-memory-tensor form is modelled from the spec. -/

/-- The outputs of `add_embedding`: the raw tensor dump, the optional
metadata side file, and the emitted embedding marker fields. -/
structure EmbeddingOutput where
  tensordata_path : String
  tensordata : List (List ℚ)
  metadata_file : Option (String × List String)
  tensor_name : String
  tensor_shape : List Nat
deriving DecidableEq, Repr

/-- Modelled from the spec: `add_embedding` (in-memory tensor form) writes
the row-major tensor dump and the optional metadata side file and emits one
embedding marker; validation: the tensor name must be nonempty, and a
supplied metadata row count must match the tensor row count.  The `step`
parameter is accepted for API symmetry only and has no effect. -/
def add_embedding (tensor_name : String) (tensor : List (List ℚ))
    (tensordata_filename : String) (metadata : List String)
    (metadata_filename : String) (step : Int) :
    Except TBError EmbeddingOutput :=
  if tensor_name.length = 0 then Except.error TBError.invalidArgument
  else if metadata ≠ [] ∧ metadata.length ≠ tensor.length then
    Except.error TBError.invalidArgument
  else
    Except.ok
      { tensordata_path := tensordata_filename
        tensordata := tensor
        metadata_file :=
          if metadata = [] then none else some (metadata_filename, metadata)
        tensor_name := tensor_name
        tensor_shape := [tensor.length, (tensor.headD []).length] }

/-- C8: the step parameter of `add_embedding` has no effect on the output:
two calls differing only in step produce identical results, including the
emitted marker and all side-file contents. -/
theorem add_embedding_step_no_effect (tensor_name : String)
    (tensor : List (List ℚ)) (tensordata_filename : String)
    (metadata : List String) (metadata_filename : String) (s1 s2 : Int) :
    add_embedding tensor_name tensor tensordata_filename metadata
        metadata_filename s1 =
      add_embedding tensor_name tensor tensordata_filename metadata
        metadata_filename s2 := rfl

/-! ## Concurrency: framed appends under the file mutex

`TensorBoardLogger::write` and `flusher` are only declared in the header;
their locking discipline is modelled from the spec: one mutex
(`file_object_mtx`) guards the output stream, held for the duration of each
complete record append and of each flush.  A scheduler step either takes
the free mutex, writes a further chunk of the holder's current record, or
releases the mutex — at a record boundary for writers, having written
nothing for a flush. -/

/-- A serialized payload queued for appending. -/
abbrev Payload := List Nat

/-- Shared state of the logger file across concurrent callers: the bytes
written so far, the mutex holder (a thread index, when held), the remaining
payloads of each caller thread, and how many bytes of the holder's current
record are already written. -/
structure SysState where
  file : List Nat
  lock : Option Nat
  pending : List (List Payload)
  written : Nat
deriving DecidableEq, Repr

/-- The current (head) payload of thread `t`. -/
def currentPayload (s : SysState) (t : Nat) : Option Payload :=
  (s.pending.getD t []).head?

/-- One scheduler step of the model described above. -/
inductive WStep : SysState → SysState → Prop where
  | acquire (s : SysState) (t : Nat) (h : s.lock = none) :
      WStep s ⟨s.file, some t, s.pending, 0⟩
  | writeChunk (s : SysState) (t : Nat) (p : Payload) (k : Nat)
      (hl : s.lock = some t) (hp : currentPayload s t = some p)
      (hk : s.written + k ≤ (encode_record p).length) :
      WStep s ⟨s.file ++ ((encode_record p).drop s.written).take k,
        s.lock, s.pending, s.written + k⟩
  | finishRecord (s : SysState) (t : Nat) (p : Payload)
      (hl : s.lock = some t) (hp : currentPayload s t = some p)
      (hw : s.written = (encode_record p).length) :
      WStep s ⟨s.file, none, s.pending.set t (s.pending.getD t []).tail, 0⟩
  | flushRelease (s : SysState) (t : Nat)
      (hl : s.lock = some t) (hw : s.written = 0) :
      WStep s ⟨s.file, none, s.pending, 0⟩

/-- The bytes of the lock holder's in-progress record. -/
def lockedSuffix (s : SysState) : List Nat :=
  ((s.lock.bind (fun t => currentPayload s t)).map
    (fun p => (encode_record p).take s.written)).getD []

/-- Execution invariant: the file is a flattening of complete framed
records followed by the lock holder's partial record, and the completed
payloads together with the pending ones are a permutation of the initial
work. -/
def Inv (init : List Payload) (s : SysState) : Prop :=
  ∃ done : List Payload,
    s.file = (done.map encode_record).flatten ++ lockedSuffix s ∧
    (done ++ s.pending.flatten).Perm init

theorem lockedSuffix_of_none (s : SysState) (h : s.lock = none) :
    lockedSuffix s = [] := by
  simp [lockedSuffix, h]

theorem lockedSuffix_of_some (s : SysState) (t : Nat) (p : Payload)
    (hl : s.lock = some t) (hp : currentPayload s t = some p) :
    lockedSuffix s = (encode_record p).take s.written := by
  simp [lockedSuffix, hl, hp]

theorem lockedSuffix_of_written_zero (s : SysState) (hw : s.written = 0) :
    lockedSuffix s = [] := by
  unfold lockedSuffix
  rw [hw]
  cases s.lock.bind (fun t => currentPayload s t) with
  | none => rfl
  | some p => simp

theorem flatten_set_tail (pending : List (List Payload)) :
    ∀ t : Nat, ∀ p : Payload, (pending.getD t []).head? = some p →
      pending.flatten.Perm
        (p :: (pending.set t (pending.getD t []).tail).flatten) := by
  induction pending with
  | nil =>
    intro t p h
    simp [List.getD] at h
  | cons l ls ih =>
    intro t p h
    cases t with
    | zero =>
      rw [List.getD_cons_zero] at h
      cases l with
      | nil => simp at h
      | cons a l2 =>
        rw [List.head?_cons, Option.some_inj] at h
        rw [h]
        rw [List.getD_cons_zero, List.set_cons_zero, List.tail_cons,
          List.flatten_cons, List.flatten_cons, List.cons_append]
    | succ t =>
      rw [List.getD_cons_succ] at h
      have hrec := ih t p h
      rw [List.getD_cons_succ, List.set_cons_succ, List.flatten_cons,
        List.flatten_cons]
      exact (hrec.append_left l).trans List.perm_middle

theorem inv_step (init : List Payload) (s s2 : SysState)
    (hstep : WStep s s2) (hinv : Inv init s) : Inv init s2 := by
  obtain ⟨done, hfile, hperm⟩ := hinv
  cases hstep with
  | acquire t h =>
    refine ⟨done, ?_, hperm⟩
    rw [lockedSuffix_of_written_zero _ rfl]
    rw [hfile, lockedSuffix_of_none s h, List.append_nil]
  | writeChunk t p k hl hp hk =>
    refine ⟨done, ?_, hperm⟩
    have hnew : lockedSuffix
        (⟨s.file ++ ((encode_record p).drop s.written).take k,
          s.lock, s.pending, s.written + k⟩ : SysState) =
        (encode_record p).take (s.written + k) :=
      lockedSuffix_of_some _ t p hl hp
    show s.file ++ ((encode_record p).drop s.written).take k = _
    rw [hnew, hfile, lockedSuffix_of_some s t p hl hp, List.take_add,
      List.append_assoc]
  | finishRecord t p hl hp hw =>
    refine ⟨done ++ [p], ?_, ?_⟩
    · rw [lockedSuffix_of_written_zero _ rfl, List.append_nil]
      show s.file = _
      rw [hfile, lockedSuffix_of_some s t p hl hp, hw, List.take_length]
      rw [List.map_append, List.flatten_append]
      simp
    · have hmid := flatten_set_tail s.pending t p hp
      have heq : (done ++ [p]) ++
            (s.pending.set t (s.pending.getD t []).tail).flatten
          = done ++
            (p :: (s.pending.set t (s.pending.getD t []).tail).flatten) := by
        rw [List.append_assoc, List.singleton_append]
      rw [heq]
      exact ((hmid.symm).append_left done).trans hperm
  | flushRelease t hl hw =>
    refine ⟨done, ?_, hperm⟩
    rw [lockedSuffix_of_written_zero _ rfl, List.append_nil]
    show s.file = _
    rw [hfile, lockedSuffix_of_written_zero s hw, List.append_nil]

theorem inv_reachable (threads : List (List Payload)) (s : SysState)
    (h : Relation.ReflTransGen WStep ⟨[], none, threads, 0⟩ s) :
    Inv threads.flatten s := by
  induction h with
  | refl => exact ⟨[], rfl, List.Perm.refl _⟩
  | tail hab hbc ih => exact inv_step _ _ _ hbc ih

/-- C9: under every interleaving of N concurrent callers, each appending M
records while every record append and flush holds the single mutex, a final
state with the mutex free and all work done holds exactly N*M well-framed
records: the file is the flattening of the framed records of some
permutation of the submitted payloads — no byte-level interleaving between
records — and the documented framing reader recovers all N*M payloads,
each record individually checksum-valid. -/
theorem concurrent_appends_wellframed
    (threads : List (List Payload)) (N M : Nat)
    (hN : threads.length = N)
    (hM : ∀ l ∈ threads, l.length = M)
    (hlen : ∀ l ∈ threads, ∀ p ∈ l, p.length < 2 ^ 64)
    (s : SysState)
    (hreach : Relation.ReflTransGen WStep ⟨[], none, threads, 0⟩ s)
    (hfin : s.pending.flatten = []) (hlock : s.lock = none) :
    ∃ done : List Payload,
      done.Perm threads.flatten ∧
      s.file = (done.map encode_record).flatten ∧
      done.length = N * M ∧
      parse_records done.length s.file = some done := by
  obtain ⟨done, hfile, hperm⟩ := inv_reachable threads s hreach
  rw [hfin, List.append_nil] at hperm
  rw [lockedSuffix_of_none s hlock, List.append_nil] at hfile
  have hmem : ∀ p ∈ done, p.length < 2 ^ 64 := by
    intro p hp
    have hpin : p ∈ threads.flatten := hperm.mem_iff.mp hp
    obtain ⟨l, hl, hpl⟩ := List.mem_flatten.mp hpin
    exact hlen l hl p hpl
  have hrep : threads.map List.length = List.replicate N M := by
    have hall : ∀ x ∈ threads.map List.length, x = M := by
      intro x hx
      obtain ⟨l, hl, rfl⟩ := List.mem_map.mp hx
      exact hM l hl
    have he := List.eq_replicate_of_mem hall
    rwa [List.length_map, hN] at he
  have hlen_done : done.length = N * M := by
    rw [hperm.length_eq, List.length_flatten, hrep, List.sum_replicate,
      smul_eq_mul]
  refine ⟨done, hperm, hfile, hlen_done, ?_⟩
  rw [hfile]
  exact parse_records_flatten done hmem

/-- The final state of the one-thread, one-record execution used as the
witness for C9. -/
def demoFinal : SysState := ⟨encode_record [42], none, [[]], 0⟩

/-- Witness for C9: a single thread appends the single payload `[42]` in an
explicit acquire / write / release execution. -/
theorem concurrent_appends_wellframed_witness :
    ([[[42]]] : List (List Payload)).length = 1 ∧
    (∀ l ∈ ([[[42]]] : List (List Payload)), l.length = 1) ∧
    (∀ l ∈ ([[[42]]] : List (List Payload)), ∀ p ∈ l, p.length < 2 ^ 64) ∧
    demoFinal.pending.flatten = [] ∧ demoFinal.lock = none ∧
    (∃ done : List Payload,
      done.Perm ([[[42]]] : List (List Payload)).flatten ∧
      demoFinal.file = (done.map encode_record).flatten ∧
      done.length = 1 * 1 ∧
      parse_records done.length demoFinal.file = some done) := by
  refine ⟨rfl, by decide, by decide, rfl, rfl, ?_⟩
  apply concurrent_appends_wellframed [[[42]]] 1 1 rfl (by decide) (by decide)
    demoFinal ?_ rfl rfl
  refine Relation.ReflTransGen.head
    (WStep.acquire ⟨[], none, [[[42]]], 0⟩ 0 rfl) ?_
  refine Relation.ReflTransGen.head
    (WStep.writeChunk ⟨[], some 0, [[[42]]], 0⟩ 0 [42]
      ((encode_record [42]).length) rfl rfl (by simp)) ?_
  refine Relation.ReflTransGen.head ?_ Relation.ReflTransGen.refl
  exact WStep.finishRecord _ 0 [42] rfl rfl (by simp)

end TBLogger
